import Mathlib

/-!
Verification of the subclause-generation core in
`src/subclause_generator/subclauses.py` (class `SubclauseGenerator`).

The dependency parser (spaCy) is an external collaborator: we model its
output as a list of dependency-tree roots (`List Tok`); a parsed token
carries its surface text, its 0-based position `i`, its coarse tag, its
dependency label and its list of syntactic children, exactly the fields
the Python code reads (`tok.text`, `tok.i`, `kid.tag_`, `kid.dep_`,
`tok.children`).

The Python code identifies a token by the string `tok.text + "-" + str(tok.i)`
and later recovers the position with `rindex("-")` and strips it with the
regex `(.*)-[0-9]+`.  Since the position digits contain no hyphen, the
separating hyphen is always the last hyphen of that string and the greedy
regex always strips exactly the final `-<digits>` suffix, so the string is
a faithful encoding of the pair `(text, i)`; we model it as that pair.

Python `set`s are modelled as duplicate-free lists in a deterministic
(insertion) order: `sadd` is `set.add`, `sunion` is `set.update` (`|=`),
`List.dedup` deduplicates a list of values as building a `set` of them
does.  Wherever an iteration order of a Python set could influence the
result, the claims' tree-validity hypotheses make the result independent
of that order (the theorems below prove the properties, they do not
assume them).
-/

abbrev Key := String × Nat

inductive Tok : Type where
  | mk (text : String) (i : Nat) (tag : String) (dep : String) (children : List Tok) : Tok

def Tok.text : Tok → String
  | .mk t _ _ _ _ => t

def Tok.i : Tok → Nat
  | .mk _ i _ _ _ => i

def Tok.tag : Tok → String
  | .mk _ _ g _ _ => g

def Tok.dep : Tok → String
  | .mk _ _ _ d _ => d

def Tok.children : Tok → List Tok
  | .mk _ _ _ _ c => c

/-- The `tok.text + "-" + str(tok.i)` identifier, modelled as a pair. -/
def tokKey (t : Tok) : Key := (t.text, t.i)

/-- Python `set.add`: append the element unless already present. -/
def sadd (s : List Key) (x : Key) : List Key := if x ∈ s then s else s ++ [x]

/-- Python set union update (`s |= t`): add every element of `t` to `s`. -/
def sunion (s t : List Key) : List Key := t.foldl sadd s

/-- Python `str.lower()` (the tags and labels involved are ASCII). -/
def lower_str (s : String) : String := String.mk (s.toList.map Char.toLower)

/-- Class attribute `subclause_marker_relationships = {"conj", "ccomp"}`. -/
def subclause_marker_relationships : List String := ["conj", "ccomp"]

/-- The boundary test of `get_children_recurs` (line 199):
`(dep in self.subclause_marker_relationships) and (tag == "verb" or tag == "vbd" or tag == "vbz" or tag == "vbg")`
where `tag = kid.tag_.lower()` and `dep = kid.dep_.lower()`. -/
def isBoundary (kid : Tok) : Bool :=
  decide (lower_str kid.dep ∈ subclause_marker_relationships) &&
    (lower_str kid.tag == "verb" || lower_str kid.tag == "vbd" ||
     lower_str kid.tag == "vbz" || lower_str kid.tag == "vbg")

/-- Value of `self.conj_and_punc_list` for `lang == "en"`. -/
def conj_and_punc_list_en : List String :=
  ["and", "or", "but", "however", "also", "?", "!", ".", ",", ":", ";"]

/-- Value of `self.conj_and_punc_list` for `lang == "tr"`. -/
def conj_and_punc_list_tr : List String :=
  ["ve", "veya", "ama", "buna rağmen", "ayrıca", "?", "!", ".", ",", ":", ";"]

mutual
/-- All nodes of a dependency subtree (the node itself and, recursively,
all nodes below its children), in preorder. -/
def allNodes : Tok → List Tok
  | .mk text i tag dep kids => .mk text i tag dep kids :: allNodesList kids
/-- Nodes of a forest of subtrees, concatenated. -/
def allNodesList : List Tok → List Tok
  | [] => []
  | t :: ts => allNodes t ++ allNodesList ts
end

mutual
/-- Height of a dependency tree (number of nodes on the longest root-to-leaf
path); bounds the recursion depth of `get_children_recurs`. -/
def height : Tok → Nat
  | .mk _ _ _ _ kids => heightList kids + 1
def heightList : List Tok → Nat
  | [] => 0
  | t :: ts => max (height t) (heightList ts)
end

mutual
/-- The `lev >= 1` part of `get_children_recurs tok lev`: the recursion of
lines 185-204 never adds `tok` itself for `lev >= 1` and only consults
`lev == 0` at the top, so the loop body over `tok.children` is a
`lev`-independent function of the subtree.  `subtreeScan tok` is the set
the Python recursion accumulates below `tok`. -/
def subtreeScan : Tok → List Key
  | .mk _ _ _ _ kids => kidsScan kids
/-- The `for kid in tok.children` loop of `get_children_recurs`: a boundary
child is skipped (`continue`), every other child contributes its key
(`all_children.add`) and its own recursively scanned subtree
(`all_children |= ...`). -/
def kidsScan : List Tok → List Key
  | [] => []
  | kid :: rest =>
    if isBoundary kid then kidsScan rest
    else sunion (sadd [] (tokKey kid)) (sunion (subtreeScan kid) (kidsScan rest))
end

/-- Model of `SubclauseGenerator.get_children_recurs(tok, lev)` (lines 185-204):
`{tok.text + "-" + str(tok.i)}` when `lev == 0`, plus everything the
children loop accumulates.  The Python recursion passes `lev + 1` to
every recursive call and only ever tests `lev == 0`, so the recursive
part is `subtreeScan`; `get_children_recurs_fuel` below is the direct,
call-by-call translation of the Python recursion, and the theorem for
claim C9 proves that it stabilises to this function. -/
def get_children_recurs (tok : Tok) (lev : Nat) : List Key :=
  sunion (if lev = 0 then sadd [] (tokKey tok) else []) (subtreeScan tok)

mutual
/-- Direct translation of the Python recursion of `get_children_recurs`,
with `fuel` counting the allowed call depth (`none` = the recursion
would need to descend deeper than `fuel` nested calls). -/
def get_children_recurs_fuel : Nat → Tok → Nat → Option (List Key)
  | 0, _, _ => none
  | fuel + 1, tok, lev =>
    match children_scan_fuel fuel tok.children (lev + 1) with
    | none => none
    | some kids_set => some (sunion (if lev = 0 then sadd [] (tokKey tok) else []) kids_set)
termination_by fuel _ _ => (fuel, 0)
/-- The `for kid in tok.children` loop of the fuel-indexed translation. -/
def children_scan_fuel : Nat → List Tok → Nat → Option (List Key)
  | _, [], _ => some []
  | fuel, kid :: rest, lev =>
    if isBoundary kid then children_scan_fuel fuel rest lev
    else
      match get_children_recurs_fuel fuel kid lev, children_scan_fuel fuel rest lev with
      | some kid_set, some rest_set =>
        some (sunion (sadd [] (tokKey kid)) (sunion kid_set rest_set))
      | _, _ => none
termination_by fuel l _ => (fuel, l.length + 1)
end

/-- Ordering of tokens by position (`tok.i`); the spaCy `doc` iterates its
tokens in this order. -/
def tokLe (a b : Tok) : Prop := a.i ≤ b.i

instance : DecidableRel tokLe := fun a b => Nat.decLe a.i b.i

instance : IsTotal Tok tokLe := ⟨fun a b => Nat.le_total a.i b.i⟩

instance : IsTrans Tok tokLe := ⟨fun _ _ _ h1 h2 => Nat.le_trans h1 h2⟩

/-- Ordering of keys by position, the sort key
`lambda token: int(token[token.rindex("-") + 1:])` of line 250. -/
def keyLe (a b : Key) : Prop := a.2 ≤ b.2

instance : DecidableRel keyLe := fun a b => Nat.decLe a.2 b.2

instance : IsTotal Key keyLe := ⟨fun a b => Nat.le_total a.2 b.2⟩

instance : IsTrans Key keyLe := ⟨fun _ _ _ h1 h2 => Nat.le_trans h1 h2⟩

/-- Position of the first token of a span, the sort key
`lambda token: int(token[0][token[0].rindex("-") + 1:])` of line 255
(spans reaching that line are never empty; `0` is a dummy default). -/
def headPos (s : List Key) : Nat :=
  match s.head? with
  | some k => k.2
  | none => 0

/-- Ordering of spans by the position of their first token. -/
def spanLe (a b : List Key) : Prop := headPos a ≤ headPos b

instance : DecidableRel spanLe := fun a b => Nat.decLe (headPos a) (headPos b)

instance : IsTotal (List Key) spanLe := ⟨fun a b => Nat.le_total (headPos a) (headPos b)⟩

instance : IsTrans (List Key) spanLe := ⟨fun _ _ _ h1 h2 => Nat.le_trans h1 h2⟩

/-- The token sequence of the parsed document: all nodes of the parsed
forest, in position order (spaCy's `for token in doc`). -/
def docOfForest (roots : List Tok) : List Tok :=
  List.insertionSort tokLe (allNodesList roots)

/-- Model of `get_all_deps` (lines 206-220): one closure per token of the document,
`[self.get_children_recurs(token, 0) for token in doc]`. -/
def get_all_deps (roots : List Tok) : List (List Key) :=
  (docOfForest roots).map (fun token => get_children_recurs token 0)

/-- One step of the loop of lines 239-243: for every `tok in dep`,
`if len(subclauses[tok]) < len(dep): subclauses[tok] = dep`. -/
def assign_step (acc : Key → List Key) (dep : List Key) : Key → List Key :=
  fun tok => if tok ∈ dep ∧ (acc tok).length < dep.length then dep else acc tok

/-- The `subclauses` defaultdict after the loop of lines 239-243 (a key
never assigned keeps the defaultdict value `set()`). -/
def subclauses_map (deps : List (List Key)) : Key → List Key :=
  deps.foldl assign_step (fun _ => [])

/-- The `all_toks` set accumulated by the same loop. -/
def all_toks (roots : List Tok) : List Key :=
  (get_all_deps roots).foldl sunion []

/-- Line 244: `set([tuple(subclauses[tok]) for tok in all_toks])`, the
deduplicated pre-trim spans. -/
def final_subclauses (roots : List Tok) : List (List Key) :=
  ((all_toks roots).map (fun tok => subclauses_map (get_all_deps roots) tok)).dedup

/-- Lines 248-251: a span sorted by token position (`int` of the suffix
after the last hyphen).  Python's stable sort can break ties between
equal positions by the set-iteration order; positions are unique in a
valid parse, so there are no ties there. -/
def sorted_span (S : List Key) : List Key :=
  List.insertionSort keyLe S

/-- Lines 246-251: `final_subclauses_tmp`, the set of position-sorted spans. -/
def final_subclauses_tmp (roots : List Tok) : List (List Key) :=
  ((final_subclauses roots).map sorted_span).dedup

/-- Lines 254-255: the spans as a list, sorted by first-token position. -/
def final_subclauses_sorted (roots : List Tok) : List (List Key) :=
  List.insertionSort spanLe (final_subclauses_tmp roots)

/-- Model of `remove_ind` (lines 268-279): strip the `-<index>` suffix from every
token, i.e. project the key to its text. -/
def remove_ind (s : List Key) : List String := s.map (fun k => k.1)

/-- Whether `sub` is a prefix of `s` (helper for Python's `in` on strings). -/
def starts_with : List Char → List Char → Bool
  | [], _ => true
  | _ :: _, [] => false
  | a :: as, b :: bs => a == b && starts_with as bs

/-- Python `sub in s` on strings: `sub` occurs as a contiguous substring. -/
def py_in_chars (sub : List Char) : List Char → Bool
  | [] => starts_with sub []
  | c :: rest => starts_with sub (c :: rest) || py_in_chars sub rest

/-- Python `sub in s` for strings. -/
def py_in_str (sub s : String) : Bool := py_in_chars sub.toList s.toList

/-- The `while True` loop of `remove_trailing_conjs_and_puncs`
(lines 311-320), indexed by fuel.  Each executed pass either removes at
least one element or is the last pass, so `s.length` passes always
suffice (`trim_iter_fuel_irrelevant` below); the fuel only makes the
loop structurally recursive.  One pass: drop the first element if it is
in `conjunction_list` (`neither_conj += 1`), then drop the last element
of the possibly shortened list if it is in `conjunction_list`
(`neither_conj += 2`), and stop when `neither_conj == 0` or the length
has dropped to at most 1. -/
def trim_iter (conjunction_list : List String) : Nat → List String → List String
  | 0, s => s
  | fuel + 1, s =>
    let front_hit : Bool :=
      match s with
      | [] => false
      | x :: _ => decide (x ∈ conjunction_list)
    let s1 := if front_hit then s.tail else s
    let back_hit : Bool :=
      match s1.getLast? with
      | none => false
      | some x => decide (x ∈ conjunction_list)
    let s2 := if back_hit then s1.dropLast else s1
    if (front_hit = false ∧ back_hit = false) ∨ s2.length ≤ 1 then s2
    else trim_iter conjunction_list fuel s2

/-- Model of `remove_trailing_conjs_and_puncs` (lines 293-321). -/
def remove_trailing_conjs_and_puncs (s : List String) (conjunction_list : List String) :
    List String :=
  if s.length ≤ 1 then s else trim_iter conjunction_list s.length s

/-- The body of the loop of lines 259-265: strip position suffixes, append
`final_punc` when the last token is not a substring of `".?!;:"`, then
trim boundary conjunctions and punctuation. -/
def assemble_step (final_punc : String) (conj_and_punc_list : List String)
    (subcl : List Key) : List String :=
  let s1 := remove_ind subcl
  let s2 :=
    if py_in_str (match s1.getLast? with | some x => x | none => "") ".?!;:" then s1
    else s1 ++ [final_punc]
  remove_trailing_conjs_and_puncs s2 conj_and_punc_list

/-- Lines 236-266 of `get_all_subclauses_of_sent`, after the parse: the
final list of subclauses produced from the parsed forest. -/
def get_all_subclauses_core (roots : List Tok) (final_punc : String)
    (conj_and_punc_list : List String) : List (List String) :=
  (final_subclauses_sorted roots).map (assemble_step final_punc conj_and_punc_list)

/-- Python `str.strip()`: drop leading and trailing whitespace. -/
def py_strip (s : String) : String :=
  String.mk (((s.toList.dropWhile Char.isWhitespace).reverse.dropWhile Char.isWhitespace).reverse)

/-- Model of `get_all_subclauses_of_sent` (lines 222-266).  `sent[-1]` on the
stripped sentence raises `IndexError` when the stripped sentence is
empty; we model that as `Except.error`.  Otherwise `final_punc` is that
last character when it matches `[?.!]+$`, else `"."`, and the parsed
document (`nlp` is the external parser, returning the dependency-tree
roots) is segmented by the core pipeline. -/
def get_all_subclauses_of_sent (nlp : String → List Tok)
    (conj_and_punc_list : List String) (sentence : String) :
    Except String (List (List String)) :=
  let sent := py_strip sentence
  match sent.toList.getLast? with
  | none => Except.error "string index out of range"
  | some c =>
    let final_punc := if c == '?' || c == '.' || c == '!' then String.mk [c] else "."
    Except.ok (get_all_subclauses_core (nlp sent) final_punc conj_and_punc_list)

/-- Model of `final_punc_mark` (lines 155-167): searches `([.?!])["\']*$`, i.e. the
last character once trailing quote characters are dropped, when that
character is one of `. ? !`; otherwise `"."`. -/
def final_punc_mark (s : String) : String :=
  match s.toList.reverse.dropWhile (fun c => c == '"' || c == Char.ofNat 39) with
  | c :: _ => if c == '.' || c == '?' || c == '!' then String.mk [c] else "."
  | [] => "."

/-- Model of `remove_trailing_puncs` (lines 281-291): `re.sub(r"[,;:.?!\"]+$", "", s)`,
i.e. drop the maximal trailing run of these punctuation characters. -/
def remove_trailing_puncs (s : String) : String :=
  String.mk ((s.toList.reverse.dropWhile
    (fun c => c ∈ [',', ';', ':', '.', '?', '!', '"'])).reverse)

/-- Model of `re.sub(r"[ ]+", r" ", s)` (line 139): collapse runs of spaces.  The
flag records whether the previously read character was a space. -/
def collapse_spaces_aux : Bool → List Char → List Char
  | _, [] => []
  | prev_space, c :: rest =>
    if c == ' ' then
      if prev_space then collapse_spaces_aux true rest
      else ' ' :: collapse_spaces_aux true rest
    else c :: collapse_spaces_aux false rest

/-- Model of `re.sub(r"[ ]+", r" ", s)` on a string. -/
def collapse_spaces (s : String) : String := String.mk (collapse_spaces_aux false s.toList)

/-- Python `" ".join(l)`. -/
def join_with_spaces : List String → String
  | [] => ""
  | [x] => x
  | x :: rest => x ++ " " ++ join_with_spaces rest

/-- Python `s.split()` (whitespace splitting, empty chunks discarded);
`acc` holds the characters of the token being read, reversed. -/
def split_ws_aux : List Char → List Char → List String
  | [], acc => if acc.isEmpty then [] else [String.mk acc.reverse]
  | c :: rest, acc =>
    if c.isWhitespace then
      if acc.isEmpty then split_ws_aux rest []
      else String.mk acc.reverse :: split_ws_aux rest []
    else split_ws_aux rest (c :: acc)

/-- Python `s.strip().split()`: splitting on whitespace runs already
discards the leading and trailing runs the `strip()` would remove. -/
def py_strip_split (s : String) : List String := split_ws_aux s.toList []

/-- Model of `convert_to_subclauses` (lines 118-153).  The tokenizer
`normalize_tokenize` and the parser `self.nlp` are the external
collaborators of this method; both are parameters, so every theorem
about this function holds for the repository's concrete tokenizer and
parser.  `[tok.text for tok in self.nlp(sentence)]` is the texts of the
parsed document in position order. -/
def convert_to_subclauses (normalize : String → String) (nlp : String → List Tok)
    (conj_and_punc_list : List String) (sentence : String) :
    Except String (List (List String)) :=
  let sentence1 := normalize sentence
  let str_sentence_arr := (docOfForest (nlp sentence1)).map Tok.text
  let str_sentence := join_with_spaces str_sentence_arr
  let fpm := final_punc_mark str_sentence
  let str_sentence2 := collapse_spaces str_sentence
  match get_all_subclauses_of_sent nlp conj_and_punc_list str_sentence2 with
  | Except.error e => Except.error e
  | Except.ok rev_subclauses =>
    Except.ok (rev_subclauses.map (fun rev_subclause =>
      let adapted_subcl := remove_trailing_puncs (join_with_spaces rev_subclause)
      py_strip_split (adapted_subcl ++ " " ++ fpm)))

/-- Modelled from the spec wording of claim C3: `u` is reachable from `t`
through child edges without ever crossing a child edge whose dependency
label is a boundary relation borne by a clause-head tag; the pruning
rule applies at every depth. -/
inductive SpecReachable : Tok → Tok → Prop where
  | refl (t : Tok) : SpecReachable t t
  | step {t u c : Tok} : SpecReachable t u → c ∈ u.children → isBoundary c = false →
      SpecReachable t c

/-- The value `subclauses[tok]` after the loop of lines 239-243. -/
def assigned (roots : List Tok) (tok : Key) : List Key :=
  subclauses_map (get_all_deps roots) tok

/-- A two-token parse used by the witnesses: `like` with the single
non-boundary dependent `food`. -/
def sampleKid : Tok := .mk "food" 1 "nn" "dobj" []

/-- Root of the two-token sample parse. -/
def sampleRoot : Tok := .mk "like" 0 "vbp" "root" [sampleKid]

/-! Section: Basic facts about the list-encoded sets -/

theorem mem_sadd {s : List Key} {x y : Key} : y ∈ sadd s x ↔ y ∈ s ∨ y = x := by
  unfold sadd
  by_cases h : x ∈ s
  · simp only [if_pos h]
    constructor
    · exact Or.inl
    · rintro (hy | rfl) <;> [exact hy; exact h]
  · simp [if_neg h]

theorem nodup_sadd {s : List Key} (x : Key) (h : s.Nodup) : (sadd s x).Nodup := by
  unfold sadd
  by_cases hx : x ∈ s
  · simpa [if_pos hx]
  · simpa [if_neg hx, List.nodup_append, h] using hx

theorem mem_sunion {s t : List Key} {x : Key} : x ∈ sunion s t ↔ x ∈ s ∨ x ∈ t := by
  induction t generalizing s with
  | nil => simp [sunion]
  | cons a t ih =>
    show x ∈ sunion (sadd s a) t ↔ _
    rw [ih, mem_sadd]
    simp only [List.mem_cons]
    tauto

theorem nodup_sunion {s : List Key} (t : List Key) (h : s.Nodup) : (sunion s t).Nodup := by
  induction t generalizing s with
  | nil => exact h
  | cons a t ih => exact ih (nodup_sadd a h)

theorem sunion_eq_append {t : List Key} (acc : List Key) (ht : t.Nodup)
    (hd : ∀ x ∈ t, x ∉ acc) : sunion acc t = acc ++ t := by
  induction t generalizing acc with
  | nil => simp [sunion]
  | cons a t ih =>
    have ha : a ∉ acc := hd a (List.mem_cons_self a t)
    have hcons := List.nodup_cons.mp ht
    show sunion (sadd acc a) t = _
    rw [show sadd acc a = acc ++ [a] from if_neg ha, ih (acc ++ [a]) hcons.2]
    · simp
    · intro x hx
      simp only [List.mem_append, List.mem_singleton]
      rintro (hxa | rfl)
      · exact hd x (List.mem_cons_of_mem a hx) hxa
      · exact hcons.1 hx

theorem sunion_nil_left {t : List Key} (ht : t.Nodup) : sunion [] t = t := by
  simpa using sunion_eq_append [] ht (by simp)

/-! Section: Structural induction over dependency trees -/

theorem tok_ind {P : Tok → Prop}
    (step : ∀ text i tag dep kids, (∀ k ∈ kids, P k) → P (.mk text i tag dep kids)) :
    ∀ t, P t
  | .mk text i tag dep kids =>
    step text i tag dep kids (fun k hk => tok_ind step k)
termination_by t => sizeOf t
decreasing_by
  simp_wf
  have := List.sizeOf_lt_of_mem hk
  omega

/-! Section: `allNodes` -/

theorem mem_allNodesList {t : Tok} {L : List Tok} :
    t ∈ allNodesList L ↔ ∃ r ∈ L, t ∈ allNodes r := by
  induction L with
  | nil => simp [allNodesList]
  | cons a L ih =>
    rw [allNodesList]
    simp only [List.mem_append, ih, List.mem_cons]
    constructor
    · rintro (h | ⟨r, hr, hrt⟩)
      · exact ⟨a, Or.inl rfl, h⟩
      · exact ⟨r, Or.inr hr, hrt⟩
    · rintro ⟨r, rfl | hr, hrt⟩
      · exact Or.inl hrt
      · exact Or.inr ⟨r, hr, hrt⟩

theorem self_mem_allNodes (t : Tok) : t ∈ allNodes t := by
  cases t
  rw [allNodes]
  exact List.mem_cons_self _ _

theorem mem_allNodes_elim {u t : Tok} (h : u ∈ allNodes t) :
    u = t ∨ ∃ kid ∈ t.children, u ∈ allNodes kid := by
  cases t
  rw [allNodes] at h
  rcases List.mem_cons.mp h with h | h
  · exact Or.inl h
  · exact Or.inr (mem_allNodesList.mp h)

theorem mem_allNodes_of_kid {x kid t : Tok} (hk : kid ∈ t.children) (hx : x ∈ allNodes kid) :
    x ∈ allNodes t := by
  cases t
  rw [allNodes]
  exact List.mem_cons_of_mem _ (mem_allNodesList.mpr ⟨kid, hk, hx⟩)

theorem kid_mem_allNodes {kid t : Tok} (hk : kid ∈ t.children) : kid ∈ allNodes t :=
  mem_allNodes_of_kid hk (self_mem_allNodes kid)

theorem allNodes_trans : ∀ b : Tok, ∀ a ∈ allNodes b, ∀ x ∈ allNodes a, x ∈ allNodes b := by
  refine tok_ind ?_
  intro text i tag dep kids ih a ha x hx
  rcases mem_allNodes_elim ha with rfl | ⟨kid, hkid, hakid⟩
  · exact hx
  · exact mem_allNodes_of_kid hkid (ih kid hkid a hakid x hx)

theorem sublist_allNodesList {kid : Tok} : ∀ {L : List Tok}, kid ∈ L →
    (allNodes kid).Sublist (allNodesList L) := by
  intro L hL
  induction L with
  | nil => cases hL
  | cons a L ih =>
    rw [allNodesList]
    rcases List.mem_cons.mp hL with rfl | h
    · exact List.sublist_append_left _ _
    · exact (ih h).trans (List.sublist_append_right _ _)

theorem allNodes_sublist : ∀ b : Tok, ∀ a ∈ allNodes b, (allNodes a).Sublist (allNodes b) := by
  refine tok_ind ?_
  intro text i tag dep kids ih a ha
  rcases mem_allNodes_elim ha with rfl | ⟨kid, hkid, hakid⟩
  · exact List.Sublist.refl _
  · refine ((ih kid hkid a hakid).trans (sublist_allNodesList hkid)).trans ?_
    rw [allNodes]
    exact (List.Sublist.refl _).cons _

theorem allNodes_length_lt {a b : Tok} (h : a ∈ allNodes b) :
    a = b ∨ (allNodes a).length < (allNodes b).length := by
  rcases mem_allNodes_elim h with rfl | ⟨kid, hkid, hakid⟩
  · exact Or.inl rfl
  · right
    have h1 : (allNodes a).length ≤ (allNodes kid).length :=
      (allNodes_sublist kid a hakid).length_le
    have h2 : (allNodes kid).length ≤ (allNodesList b.children).length :=
      (sublist_allNodesList hkid).length_le
    have h3 : (allNodes b).length = (allNodesList b.children).length + 1 := by
      cases b
      rw [allNodes, Tok.children]
      simp
    omega

theorem mem_allNodes_antisymm {a b : Tok} (hab : a ∈ allNodes b) (hba : b ∈ allNodes a) :
    a = b := by
  rcases allNodes_length_lt hab with rfl | h1
  · rfl
  rcases allNodes_length_lt hba with rfl | h2
  · rfl
  omega

/-! Section: Membership in the computed closures -/

theorem subtreeScan_eq (t : Tok) : subtreeScan t = kidsScan t.children := by
  cases t
  rw [subtreeScan, Tok.children]

theorem mem_kidsScan {x : Key} : ∀ {L : List Tok},
    x ∈ kidsScan L ↔
      ∃ kid ∈ L, isBoundary kid = false ∧ (x = tokKey kid ∨ x ∈ subtreeScan kid) := by
  intro L
  induction L with
  | nil => simp [kidsScan]
  | cons kid rest ih =>
    rw [kidsScan]
    by_cases hb : isBoundary kid = true
    · simp only [hb, if_true, ih]
      constructor
      · rintro ⟨k, hk, h⟩
        exact ⟨k, List.mem_cons_of_mem _ hk, h⟩
      · rintro ⟨k, hk, hkb, h⟩
        rcases List.mem_cons.mp hk with rfl | hk2
        · rw [hb] at hkb
          cases hkb
        · exact ⟨k, hk2, hkb, h⟩
    · rw [if_neg hb]
      rw [Bool.not_eq_true] at hb
      rw [mem_sunion, mem_sunion, mem_sadd, ih]
      constructor
      · rintro ((h | h) | h | ⟨k, hk, hkb, hx⟩)
        · cases h
        · exact ⟨kid, List.mem_cons_self _ _, hb, Or.inl h⟩
        · exact ⟨kid, List.mem_cons_self _ _, hb, Or.inr h⟩
        · exact ⟨k, List.mem_cons_of_mem _ hk, hkb, hx⟩
      · rintro ⟨k, hk, hkb, hx⟩
        rcases List.mem_cons.mp hk with rfl | hk2
        · rcases hx with h | h
          · exact Or.inl (Or.inr h)
          · exact Or.inr (Or.inl h)
        · exact Or.inr (Or.inr ⟨k, hk2, hkb, hx⟩)

theorem sadd_nil (x : Key) : sadd [] x = [x] := by
  simp [sadd]

theorem nodup_kidsScan : ∀ L : List Tok, (kidsScan L).Nodup := by
  intro L
  induction L with
  | nil => simp [kidsScan]
  | cons kid rest ih =>
    rw [kidsScan]
    by_cases hb : isBoundary kid = true
    · simpa [hb]
    · rw [if_neg hb, sadd_nil]
      exact nodup_sunion _ (List.nodup_singleton _)

theorem nodup_closure (t : Tok) (lev : Nat) : (get_children_recurs t lev).Nodup := by
  unfold get_children_recurs
  by_cases h : lev = 0
  · rw [if_pos h, sadd_nil]
    exact nodup_sunion _ (List.nodup_singleton _)
  · rw [if_neg h]
    exact nodup_sunion _ List.nodup_nil

theorem mem_closure_zero {x : Key} {t : Tok} :
    x ∈ get_children_recurs t 0 ↔ x = tokKey t ∨ x ∈ subtreeScan t := by
  unfold get_children_recurs
  rw [if_pos rfl, sadd_nil, mem_sunion]
  simp

theorem self_mem_closure (t : Tok) : tokKey t ∈ get_children_recurs t 0 :=
  mem_closure_zero.mpr (Or.inl rfl)

theorem subtree_subset_keys : ∀ t : Tok, ∀ x ∈ subtreeScan t, ∃ u ∈ allNodes t, x = tokKey u := by
  refine tok_ind ?_
  intro text i tag dep kids ih x hx
  rw [subtreeScan_eq, Tok.children] at hx
  rcases mem_kidsScan.mp hx with ⟨kid, hkid, _, hcase⟩
  have hkid' : kid ∈ (Tok.mk text i tag dep kids).children := by
    rw [Tok.children]; exact hkid
  rcases hcase with rfl | hsub
  · exact ⟨kid, kid_mem_allNodes hkid', rfl⟩
  · obtain ⟨u, hu, rfl⟩ := ih kid hkid x hsub
    exact ⟨u, mem_allNodes_of_kid hkid' hu, rfl⟩

theorem closure_subset_keys {x : Key} {t : Tok} (hx : x ∈ get_children_recurs t 0) :
    ∃ u ∈ allNodes t, x = tokKey u := by
  rcases mem_closure_zero.mp hx with rfl | h
  · exact ⟨t, self_mem_allNodes t, rfl⟩
  · exact subtree_subset_keys t x h

theorem closure_subset_of_kid {kid t : Tok} (hk : kid ∈ t.children)
    (hb : isBoundary kid = false) {x : Key} (hx : x ∈ get_children_recurs kid 0) :
    x ∈ get_children_recurs t 0 := by
  refine mem_closure_zero.mpr (Or.inr ?_)
  rw [subtreeScan_eq]
  exact mem_kidsScan.mpr ⟨kid, hk, hb, mem_closure_zero.mp hx⟩

theorem mem_closure_elim {x : Key} {t : Tok} (hx : x ∈ get_children_recurs t 0) :
    x = tokKey t ∨ ∃ kid ∈ t.children, isBoundary kid = false ∧ x ∈ get_children_recurs kid 0 := by
  rcases mem_closure_zero.mp hx with rfl | h
  · exact Or.inl rfl
  · rw [subtreeScan_eq] at h
    rcases mem_kidsScan.mp h with ⟨kid, hkid, hb, hcase⟩
    exact Or.inr ⟨kid, hkid, hb, mem_closure_zero.mpr hcase⟩

/-! Section: Position uniqueness: injectivity, disjoint subtrees, comparability -/

theorem map_i_allNodes (text : String) (i : Nat) (tag dep : String) (kids : List Tok) :
    (allNodes (Tok.mk text i tag dep kids)).map Tok.i =
      i :: (allNodesList kids).map Tok.i := by
  rw [allNodes]
  simp [Tok.i]

theorem nodup_allNodes_of_mem_list {L : List Tok}
    (hnd : ((allNodesList L).map Tok.i).Nodup) {b : Tok} (hb : b ∈ allNodesList L) :
    ((allNodes b).map Tok.i).Nodup := by
  obtain ⟨r, hr, hbr⟩ := mem_allNodesList.mp hb
  exact hnd.sublist (((allNodes_sublist r b hbr).trans (sublist_allNodesList hr)).map Tok.i)

theorem pos_inj_forest {L : List Tok} (hnd : ((allNodesList L).map Tok.i).Nodup)
    {u v : Tok} (hu : u ∈ allNodesList L) (hv : v ∈ allNodesList L) (h : u.i = v.i) :
    u = v :=
  List.inj_on_of_nodup_map hnd hu hv h

theorem forest_trans {L : List Tok} {a x : Tok} (ha : a ∈ allNodesList L)
    (hx : x ∈ allNodes a) : x ∈ allNodesList L := by
  obtain ⟨r, hr, har⟩ := mem_allNodesList.mp ha
  exact mem_allNodesList.mpr ⟨r, hr, allNodes_trans r a har x hx⟩

theorem list_pos_disjoint : ∀ L : List Tok, ((allNodesList L).map Tok.i).Nodup →
    ∀ x ∈ L, ∀ y ∈ L, ∀ u v : Tok, u ∈ allNodes x → v ∈ allNodes y → u.i = v.i → x = y := by
  intro L
  induction L with
  | nil => intro _ x hx; cases hx
  | cons a L ih =>
    intro hnd x hx y hy u v hu hv huv
    rw [allNodesList, List.map_append, List.nodup_append] at hnd
    obtain ⟨n1, n2, disj⟩ := hnd
    rcases List.mem_cons.mp hx with rfl | hx2 <;> rcases List.mem_cons.mp hy with rfl | hy2
    · rfl
    · exfalso
      refine disj (List.mem_map_of_mem Tok.i hu) ?_
      rw [huv]
      exact List.mem_map_of_mem Tok.i (mem_allNodesList.mpr ⟨y, hy2, hv⟩)
    · exfalso
      refine disj (List.mem_map_of_mem Tok.i hv) ?_
      rw [← huv]
      exact List.mem_map_of_mem Tok.i (mem_allNodesList.mpr ⟨x, hx2, hu⟩)
    · exact ih n2 x hx2 y hy2 u v hu hv huv

theorem tree_comp : ∀ b : Tok, ((allNodes b).map Tok.i).Nodup →
    ∀ a ∈ allNodes b, ∀ c ∈ allNodes b, ∀ u : Tok, u ∈ allNodes a → u ∈ allNodes c →
      a ∈ allNodes c ∨ c ∈ allNodes a := by
  refine tok_ind ?_
  intro text i tag dep kids ih hnd a ha c hc u hua huc
  rw [map_i_allNodes, List.nodup_cons] at hnd
  rcases mem_allNodes_elim ha with rfl | ⟨ka, hka, haka⟩
  · exact Or.inr hc
  rcases mem_allNodes_elim hc with rfl | ⟨kc, hkc, hckc⟩
  · exact Or.inl ha
  have hka' : ka ∈ kids := hka
  have hkc' : kc ∈ kids := hkc
  have hua' : u ∈ allNodes ka := allNodes_trans ka a haka u hua
  have huc' : u ∈ allNodes kc := allNodes_trans kc c hckc u huc
  have hkk : ka = kc := list_pos_disjoint kids hnd.2 ka hka' kc hkc' u u hua' huc' rfl
  subst hkk
  exact ih ka hka'
    (hnd.2.sublist ((sublist_allNodesList hka').map Tok.i)) a haka c hckc u hua huc

theorem forest_comp {L : List Tok} (hnd : ((allNodesList L).map Tok.i).Nodup)
    {a c : Tok} (ha : a ∈ allNodesList L) (hc : c ∈ allNodesList L)
    {u : Tok} (hua : u ∈ allNodes a) (huc : u ∈ allNodes c) :
    a ∈ allNodes c ∨ c ∈ allNodes a := by
  obtain ⟨r1, hr1, har1⟩ := mem_allNodesList.mp ha
  obtain ⟨r2, hr2, hcr2⟩ := mem_allNodesList.mp hc
  have hr12 : r1 = r2 :=
    list_pos_disjoint L hnd r1 hr1 r2 hr2 u u
      (allNodes_trans r1 a har1 u hua) (allNodes_trans r2 c hcr2 u huc) rfl
  subst hr12
  exact tree_comp r1
    (hnd.sublist ((sublist_allNodesList hr1).map Tok.i)) a har1 c hcr2 u hua huc

theorem tokKey_snd (t : Tok) : (tokKey t).2 = t.i := rfl

/-! Section: Nesting of closures along the tree -/

theorem tok_closure_mono : ∀ b : Tok, ((allNodes b).map Tok.i).Nodup →
    ∀ a ∈ allNodes b, ∀ kt ∈ get_children_recurs b 0, (∃ w ∈ allNodes a, w.i = kt.2) →
      ∀ x ∈ get_children_recurs a 0, x ∈ get_children_recurs b 0 := by
  refine tok_ind ?_
  intro text i tag dep kids ih hnd a ha kt hkt hw x hx
  rcases mem_allNodes_elim ha with rfl | ⟨kb, hkb, hakb⟩
  · exact hx
  have hkb' : kb ∈ kids := hkb
  rw [map_i_allNodes, List.nodup_cons] at hnd
  obtain ⟨w, hwa, hwi⟩ := hw
  have hwkb : w ∈ allNodes kb := allNodes_trans kb a hakb w hwa
  rcases mem_closure_elim hkt with rfl | ⟨kc, hkc, hbnd, hktc⟩
  · exfalso
    refine hnd.1 ?_
    have : w.i = i := hwi
    rw [← this]
    exact List.mem_map_of_mem Tok.i (mem_allNodesList.mpr ⟨kb, hkb', hwkb⟩)
  · have hkc' : kc ∈ kids := hkc
    obtain ⟨z, hz, rfl⟩ := closure_subset_keys hktc
    have hzw : z.i = w.i := by
      have : (tokKey z).2 = z.i := rfl
      omega
    have hkk : kc = kb := list_pos_disjoint kids hnd.2 kc hkc' kb hkb' z w hz hwkb hzw
    subst hkk
    refine closure_subset_of_kid hkc hbnd ?_
    exact ih kc hkc' (hnd.2.sublist ((sublist_allNodesList hkc').map Tok.i))
      a hakb (tokKey z) hktc ⟨w, hwa, hwi⟩ x hx

theorem closure_chain {L : List Tok} (hnd : ((allNodesList L).map Tok.i).Nodup)
    {a b : Tok} (ha : a ∈ allNodesList L) (hb : b ∈ allNodesList L)
    {kt : Key} (hkta : kt ∈ get_children_recurs a 0) (hktb : kt ∈ get_children_recurs b 0) :
    (∀ x ∈ get_children_recurs a 0, x ∈ get_children_recurs b 0) ∨
      (∀ x ∈ get_children_recurs b 0, x ∈ get_children_recurs a 0) := by
  obtain ⟨u, hua, hku⟩ := closure_subset_keys hkta
  obtain ⟨v, hvb, hkv⟩ := closure_subset_keys hktb
  have huv : u = v := by
    refine pos_inj_forest hnd (forest_trans ha hua) (forest_trans hb hvb) ?_
    have h1 : kt.2 = u.i := by rw [hku, tokKey_snd]
    have h2 : kt.2 = v.i := by rw [hkv, tokKey_snd]
    omega
  subst huv
  rcases forest_comp hnd ha hb hua hvb with hab | hba
  · exact Or.inl (tok_closure_mono b (nodup_allNodes_of_mem_list hnd hb) a hab kt hktb
      ⟨u, hua, by rw [hku, tokKey_snd]⟩)
  · exact Or.inr (tok_closure_mono a (nodup_allNodes_of_mem_list hnd ha) b hba kt hkta
      ⟨u, hvb, by rw [hku, tokKey_snd]⟩)

theorem root_inj {L : List Tok} (hnd : ((allNodesList L).map Tok.i).Nodup)
    {a b : Tok} (ha : a ∈ allNodesList L) (hb : b ∈ allNodesList L)
    (h : ∀ x, x ∈ get_children_recurs a 0 ↔ x ∈ get_children_recurs b 0) : a = b := by
  have hab : a ∈ allNodes b := by
    obtain ⟨v, hvb, hkv⟩ := closure_subset_keys ((h (tokKey a)).mp (self_mem_closure a))
    have : v = a := by
      refine pos_inj_forest hnd (forest_trans hb hvb) ha ?_
      have h1 : (tokKey a).2 = a.i := tokKey_snd a
      have h2 : (tokKey a).2 = v.i := by rw [hkv, tokKey_snd]
      omega
    rw [← this]
    exact hvb
  have hba : b ∈ allNodes a := by
    obtain ⟨v, hva, hkv⟩ := closure_subset_keys ((h (tokKey b)).mpr (self_mem_closure b))
    have : v = b := by
      refine pos_inj_forest hnd (forest_trans ha hva) hb ?_
      have h1 : (tokKey b).2 = b.i := tokKey_snd b
      have h2 : (tokKey b).2 = v.i := by rw [hkv, tokKey_snd]
      omega
    rw [← this]
    exact hva
  exact mem_allNodes_antisymm hab hba

/-! Section: The assignment fold (lines 239-243) -/

theorem assign_fold_le (deps : List (List Key)) :
    ∀ (acc : Key → List Key) (tok : Key),
      (acc tok).length ≤ ((deps.foldl assign_step acc) tok).length := by
  induction deps with
  | nil => intro acc tok; exact Nat.le_refl _
  | cons d ds ih =>
    intro acc tok
    refine Nat.le_trans ?_ (ih (assign_step acc d) tok)
    unfold assign_step
    by_cases h : tok ∈ d ∧ (acc tok).length < d.length
    · rw [if_pos h]
      exact Nat.le_of_lt h.2
    · rw [if_neg h]

theorem assign_fold_cases (deps : List (List Key)) :
    ∀ (acc : Key → List Key) (tok : Key),
      (deps.foldl assign_step acc) tok = acc tok ∨
        (tok ∈ (deps.foldl assign_step acc) tok ∧ (deps.foldl assign_step acc) tok ∈ deps) := by
  induction deps with
  | nil => intro acc tok; exact Or.inl rfl
  | cons d ds ih =>
    intro acc tok
    rcases ih (assign_step acc d) tok with h | h
    · rw [List.foldl_cons, h]
      unfold assign_step
      by_cases hc : tok ∈ d ∧ (acc tok).length < d.length
      · rw [if_pos hc]
        exact Or.inr ⟨hc.1, List.mem_cons_self _ _⟩
      · rw [if_neg hc]
        exact Or.inl rfl
    · rw [List.foldl_cons]
      exact Or.inr ⟨h.1, List.mem_cons_of_mem _ h.2⟩

theorem assign_fold_max (deps : List (List Key)) :
    ∀ (acc : Key → List Key) (tok : Key) (dep : List Key), dep ∈ deps → tok ∈ dep →
      dep.length ≤ ((deps.foldl assign_step acc) tok).length := by
  induction deps with
  | nil => intro _ _ _ h; cases h
  | cons d ds ih =>
    intro acc tok dep hdep htok
    rcases List.mem_cons.mp hdep with rfl | hds
    · rw [List.foldl_cons]
      refine Nat.le_trans ?_ (assign_fold_le ds (assign_step acc dep) tok)
      unfold assign_step
      by_cases hc : tok ∈ dep ∧ (acc tok).length < dep.length
      · rw [if_pos hc]
      · rw [if_neg hc]
        push_neg at hc
        exact hc htok
    · rw [List.foldl_cons]
      exact ih (assign_step acc d) tok dep hds htok

theorem mem_foldl_sunion (L : List (List Key)) :
    ∀ (acc : List Key) (x : Key),
      x ∈ L.foldl sunion acc ↔ x ∈ acc ∨ ∃ d ∈ L, x ∈ d := by
  induction L with
  | nil => intro acc x; simp
  | cons d ds ih =>
    intro acc x
    rw [List.foldl_cons, ih, mem_sunion]
    simp only [List.mem_cons]
    constructor
    · rintro ((h | h) | ⟨e, he, hx⟩)
      · exact Or.inl h
      · exact Or.inr ⟨d, Or.inl rfl, h⟩
      · exact Or.inr ⟨e, Or.inr he, hx⟩
    · rintro (h | ⟨e, rfl | he, hx⟩)
      · exact Or.inl (Or.inl h)
      · exact Or.inl (Or.inr hx)
      · exact Or.inr ⟨e, he, hx⟩

/-! Section: The pipeline: document, deps, assignment -/

theorem mem_docOfForest {roots : List Tok} {r : Tok} :
    r ∈ docOfForest roots ↔ r ∈ allNodesList roots :=
  (List.perm_insertionSort tokLe (allNodesList roots)).mem_iff

theorem nodup_doc_iff {roots : List Tok} :
    ((docOfForest roots).map Tok.i).Nodup ↔ ((allNodesList roots).map Tok.i).Nodup :=
  ((List.perm_insertionSort tokLe (allNodesList roots)).map Tok.i).nodup_iff

theorem mem_get_all_deps {roots : List Tok} {dep : List Key} :
    dep ∈ get_all_deps roots ↔ ∃ r ∈ docOfForest roots, dep = get_children_recurs r 0 := by
  unfold get_all_deps
  rw [List.mem_map]
  constructor
  · rintro ⟨r, hr, rfl⟩
    exact ⟨r, hr, rfl⟩
  · rintro ⟨r, hr, rfl⟩
    exact ⟨r, hr, rfl⟩

theorem closure_mem_deps {roots : List Tok} {t : Tok} (ht : t ∈ allNodesList roots) :
    get_children_recurs t 0 ∈ get_all_deps roots :=
  mem_get_all_deps.mpr ⟨t, mem_docOfForest.mpr ht, rfl⟩

theorem deps_nodup {roots : List Tok} {dep : List Key} (h : dep ∈ get_all_deps roots) :
    dep.Nodup := by
  obtain ⟨r, _, rfl⟩ := mem_get_all_deps.mp h
  exact nodup_closure r 0

theorem mem_all_toks {roots : List Tok} {x : Key} :
    x ∈ all_toks roots ↔ ∃ dep ∈ get_all_deps roots, x ∈ dep := by
  unfold all_toks
  rw [mem_foldl_sunion]
  simp

theorem assigned_spec {roots : List Tok} {kt : Key}
    (h : ∃ dep ∈ get_all_deps roots, kt ∈ dep) :
    kt ∈ assigned roots kt ∧ assigned roots kt ∈ get_all_deps roots ∧
      ∀ dep ∈ get_all_deps roots, kt ∈ dep → dep.length ≤ (assigned roots kt).length := by
  obtain ⟨dep, hdep, hkt⟩ := h
  have hmax : ∀ d ∈ get_all_deps roots, kt ∈ d → d.length ≤ (assigned roots kt).length :=
    fun d hd hk => assign_fold_max (get_all_deps roots) (fun _ => []) kt d hd hk
  have hlen : 1 ≤ (assigned roots kt).length :=
    Nat.le_trans (List.length_pos_of_mem hkt) (hmax dep hdep hkt)
  rcases assign_fold_cases (get_all_deps roots) (fun _ => []) kt with h0 | hmem
  · exfalso
    have : (assigned roots kt).length = 0 := by
      show ((get_all_deps roots).foldl assign_step (fun _ => []) kt).length = 0
      rw [h0]
      rfl
    omega
  · exact ⟨hmem.1, hmem.2, hmax⟩

theorem mem_final_subclauses {roots : List Tok} {S : List Key} :
    S ∈ final_subclauses roots ↔ ∃ kt ∈ all_toks roots, assigned roots kt = S := by
  unfold final_subclauses
  rw [List.mem_dedup, List.mem_map]
  rfl

theorem emitted_basic {roots : List Tok} {S : List Key} (hS : S ∈ final_subclauses roots) :
    S ∈ get_all_deps roots ∧ S ≠ [] := by
  obtain ⟨kt, hkt, rfl⟩ := mem_final_subclauses.mp hS
  obtain ⟨hmem, hdeps, _⟩ := assigned_spec (mem_all_toks.mp hkt)
  exact ⟨hdeps, List.ne_nil_of_mem hmem⟩

theorem list_set_eq_of_subset_of_length_le {S1 S2 : List Key} (h1 : S1.Nodup) (h2 : S2.Nodup)
    (hsub : ∀ x ∈ S1, x ∈ S2) (hlen : S2.length ≤ S1.length) : ∀ x, x ∈ S1 ↔ x ∈ S2 := by
  have hf : S1.toFinset ⊆ S2.toFinset := by
    intro x hx
    exact List.mem_toFinset.mpr (hsub x (List.mem_toFinset.mp hx))
  have hcard : S2.toFinset.card ≤ S1.toFinset.card := by
    rw [List.toFinset_card_of_nodup h1, List.toFinset_card_of_nodup h2]
    exact hlen
  have := Finset.eq_of_subset_of_card_le hf hcard
  intro x
  rw [← List.mem_toFinset, this, List.mem_toFinset]

theorem emitted_eq_assigned {roots : List Tok}
    (hnd : ((allNodesList roots).map Tok.i).Nodup)
    {S : List Key} (hS : S ∈ final_subclauses roots) {kt : Key} (hkt : kt ∈ S) :
    S = assigned roots kt := by
  obtain ⟨ku, hku, rfl⟩ := mem_final_subclauses.mp hS
  obtain ⟨hkuS, hSdeps, hmaxS⟩ := assigned_spec (mem_all_toks.mp hku)
  obtain ⟨hktS0, hS0deps, hmaxS0⟩ := assigned_spec ⟨assigned roots ku, hSdeps, hkt⟩
  obtain ⟨r, hrdoc, hSr⟩ := mem_get_all_deps.mp hSdeps
  obtain ⟨r0, hr0doc, hS0r0⟩ := mem_get_all_deps.mp hS0deps
  have hr : r ∈ allNodesList roots := mem_docOfForest.mp hrdoc
  have hr0 : r0 ∈ allNodesList roots := mem_docOfForest.mp hr0doc
  have hlen1 : (get_children_recurs r 0).length ≤ (get_children_recurs r0 0).length := by
    rw [← hSr, ← hS0r0]
    exact hmaxS0 _ hSdeps hkt
  have hktA : kt ∈ get_children_recurs r 0 := by rw [← hSr]; exact hkt
  have hktB : kt ∈ get_children_recurs r0 0 := by rw [← hS0r0]; exact hktS0
  have hkuA : ku ∈ get_children_recurs r 0 := by rw [← hSr]; exact hkuS
  have hchain := closure_chain hnd hr hr0 hktA hktB
  have hiff : ∀ x, x ∈ get_children_recurs r 0 ↔ x ∈ get_children_recurs r0 0 := by
    rcases hchain with hsub | hsub
    · have hlen2 : (get_children_recurs r0 0).length ≤ (get_children_recurs r 0).length := by
        rw [← hSr, ← hS0r0]
        refine hmaxS _ hS0deps ?_
        rw [hS0r0]
        exact hsub ku hkuA
      exact list_set_eq_of_subset_of_length_le (nodup_closure r 0) (nodup_closure r0 0)
        hsub hlen2
    · have := list_set_eq_of_subset_of_length_le (nodup_closure r0 0) (nodup_closure r 0)
        hsub hlen1
      exact fun x => (this x).symm
  have hrr : r = r0 := root_inj hnd hr hr0 hiff
  rw [hSr, hS0r0, hrr]

theorem span_keys {roots : List Tok} {S : List Key} (hS : S ∈ final_subclauses roots)
    {k : Key} (hk : k ∈ S) : ∃ u ∈ allNodesList roots, k = tokKey u := by
  obtain ⟨hdeps, _⟩ := emitted_basic hS
  obtain ⟨r, hrdoc, rfl⟩ := mem_get_all_deps.mp hdeps
  obtain ⟨u, hu, rfl⟩ := closure_subset_keys hk
  exact ⟨u, forest_trans (mem_docOfForest.mp hrdoc) hu, rfl⟩

/-- Claim C1: for every non-empty input sentence whose parse forms a
single-rooted dependency tree (modelled by the parse being one root whose
node positions are pairwise distinct), every token position appears in
exactly one of the deduplicated pre-trim spans (`final_subclauses`, line
244) produced by `get_all_subclauses_of_sent`: no position is dropped
before the trimming step and no position occurs in two distinct emitted
spans. -/
theorem claim_C1 (root : Tok)
    (hnd : ((docOfForest [root]).map Tok.i).Nodup) :
    ∀ t ∈ docOfForest [root],
      ∃! S, S ∈ final_subclauses [root] ∧ ∃ k ∈ S, k.2 = t.i := by
  intro t ht
  have hnd' : ((allNodesList [root]).map Tok.i).Nodup := nodup_doc_iff.mp hnd
  have htf : t ∈ allNodesList [root] := mem_docOfForest.mp ht
  have hdep : get_children_recurs t 0 ∈ get_all_deps [root] := closure_mem_deps htf
  have hself : tokKey t ∈ get_children_recurs t 0 := self_mem_closure t
  obtain ⟨hmem, _, _⟩ := assigned_spec ⟨_, hdep, hself⟩
  have hSfin : assigned [root] (tokKey t) ∈ final_subclauses [root] :=
    mem_final_subclauses.mpr ⟨tokKey t, mem_all_toks.mpr ⟨_, hdep, hself⟩, rfl⟩
  refine ⟨assigned [root] (tokKey t), ⟨hSfin, ⟨tokKey t, hmem, tokKey_snd t⟩⟩, ?_⟩
  rintro S ⟨hSf, k, hkS, hki⟩
  obtain ⟨u, hu, rfl⟩ := span_keys hSf hkS
  have hut : u = t := by
    refine pos_inj_forest hnd' hu htf ?_
    rw [← tokKey_snd u]
    exact hki
  subst hut
  exact emitted_eq_assigned hnd' hSf hkS

theorem claim_C1_witness :
    ((docOfForest [sampleRoot]).map Tok.i).Nodup ∧
      ∀ t ∈ docOfForest [sampleRoot],
        ∃! S, S ∈ final_subclauses [sampleRoot] ∧ ∃ k ∈ S, k.2 = t.i :=
  ⟨by decide, claim_C1 sampleRoot (by decide)⟩

/-- Claim C8: for every token `root` of a parsed sentence, the closure
returned by `get_children_recurs(root, 0)` is non-empty, contains the
token's own position, and is a subset of the sentence's set of token
positions. -/
theorem claim_C8 (roots : List Tok) (t : Tok) (ht : t ∈ docOfForest roots) :
    get_children_recurs t 0 ≠ [] ∧ tokKey t ∈ get_children_recurs t 0 ∧
      ∀ k ∈ get_children_recurs t 0, k.2 ∈ (docOfForest roots).map Tok.i := by
  refine ⟨List.ne_nil_of_mem (self_mem_closure t), self_mem_closure t, ?_⟩
  intro k hk
  obtain ⟨u, hu, rfl⟩ := closure_subset_keys hk
  have huf : u ∈ allNodesList roots := forest_trans (mem_docOfForest.mp ht) hu
  rw [tokKey_snd]
  exact List.mem_map_of_mem Tok.i (mem_docOfForest.mpr huf)

theorem claim_C8_witness :
    sampleKid ∈ docOfForest [sampleRoot] ∧
      (get_children_recurs sampleKid 0 ≠ [] ∧
        tokKey sampleKid ∈ get_children_recurs sampleKid 0 ∧
        ∀ k ∈ get_children_recurs sampleKid 0, k.2 ∈ (docOfForest [sampleRoot]).map Tok.i) :=
  ⟨List.mem_cons_of_mem _ (List.mem_cons_self _ _),
    claim_C8 [sampleRoot] sampleKid (List.mem_cons_of_mem _ (List.mem_cons_self _ _))⟩

/-- Claim C4: for every token `t` of the sentence, the span assigned to `t`
by `get_all_subclauses_of_sent` (the final value of `subclauses[tok]`,
lines 239-243) is the candidate closure of maximum size among all
candidate closures containing `t`, and when several candidate closures
containing `t` share the maximum size, one rooted at a token of smallest
position is chosen (under the tree hypothesis, same-size candidates
containing `t` coincide, so the chosen root has the smallest position). -/
theorem claim_C4 (roots : List Tok)
    (hnd : ((docOfForest roots).map Tok.i).Nodup) :
    ∀ t ∈ docOfForest roots,
      ∃ r ∈ docOfForest roots,
        assigned roots (tokKey t) = get_children_recurs r 0 ∧
        tokKey t ∈ get_children_recurs r 0 ∧
        (∀ q ∈ docOfForest roots, tokKey t ∈ get_children_recurs q 0 →
          (get_children_recurs q 0).length ≤ (get_children_recurs r 0).length) ∧
        (∀ q ∈ docOfForest roots, tokKey t ∈ get_children_recurs q 0 →
          (get_children_recurs q 0).length = (get_children_recurs r 0).length → r.i ≤ q.i) := by
  intro t ht
  have hnd' : ((allNodesList roots).map Tok.i).Nodup := nodup_doc_iff.mp hnd
  have htf : t ∈ allNodesList roots := mem_docOfForest.mp ht
  have hdep : get_children_recurs t 0 ∈ get_all_deps roots := closure_mem_deps htf
  obtain ⟨hmem, hdeps, hmax⟩ := assigned_spec ⟨_, hdep, self_mem_closure t⟩
  obtain ⟨r, hrdoc, hSr⟩ := mem_get_all_deps.mp hdeps
  have hrf : r ∈ allNodesList roots := mem_docOfForest.mp hrdoc
  have hktr : tokKey t ∈ get_children_recurs r 0 := by rw [← hSr]; exact hmem
  refine ⟨r, hrdoc, hSr, hktr, ?_, ?_⟩
  · intro q hq hqmem
    have := hmax _ (closure_mem_deps (mem_docOfForest.mp hq)) hqmem
    rw [hSr] at this
    exact this
  · intro q hq hqmem hqlen
    have hqf : q ∈ allNodesList roots := mem_docOfForest.mp hq
    have hiff : ∀ x, x ∈ get_children_recurs q 0 ↔ x ∈ get_children_recurs r 0 := by
      rcases closure_chain hnd' hqf hrf hqmem hktr with hsub | hsub
      · exact list_set_eq_of_subset_of_length_le (nodup_closure q 0) (nodup_closure r 0)
          hsub (Nat.le_of_eq hqlen.symm)
      · have := list_set_eq_of_subset_of_length_le (nodup_closure r 0) (nodup_closure q 0)
          hsub (Nat.le_of_eq hqlen)
        exact fun x => (this x).symm
    have : q = r := root_inj hnd' hqf hrf hiff
    rw [this]

theorem claim_C4_witness :
    ((docOfForest [sampleRoot]).map Tok.i).Nodup ∧
      ∀ t ∈ docOfForest [sampleRoot],
        ∃ r ∈ docOfForest [sampleRoot],
          assigned [sampleRoot] (tokKey t) = get_children_recurs r 0 ∧
          tokKey t ∈ get_children_recurs r 0 ∧
          (∀ q ∈ docOfForest [sampleRoot], tokKey t ∈ get_children_recurs q 0 →
            (get_children_recurs q 0).length ≤ (get_children_recurs r 0).length) ∧
          (∀ q ∈ docOfForest [sampleRoot], tokKey t ∈ get_children_recurs q 0 →
            (get_children_recurs q 0).length = (get_children_recurs r 0).length → r.i ≤ q.i) :=
  ⟨by decide, claim_C4 [sampleRoot] (by decide)⟩

/-! Section: Ordering of the emitted spans -/

theorem mem_final_subclauses_sorted {roots : List Tok} {span : List Key} :
    span ∈ final_subclauses_sorted roots ↔
      ∃ S ∈ final_subclauses roots, sorted_span S = span := by
  unfold final_subclauses_sorted final_subclauses_tmp
  rw [(List.perm_insertionSort spanLe _).mem_iff, List.mem_dedup, List.mem_map]

theorem sorted_span_perm (S : List Key) : List.Perm (sorted_span S) S :=
  List.perm_insertionSort keyLe S

theorem span_strict_sorted {roots : List Tok}
    (hnd : ((allNodesList roots).map Tok.i).Nodup)
    {S : List Key} (hS : S ∈ final_subclauses roots) :
    (sorted_span S).Pairwise (fun a b : Key => a.2 < b.2) := by
  have hsorted : (sorted_span S).Pairwise keyLe := List.sorted_insertionSort keyLe S
  have hnodup : (sorted_span S).Nodup :=
    ((sorted_span_perm S).nodup_iff).mpr (deps_nodup (emitted_basic hS).1)
  refine (hsorted.and hnodup).imp_of_mem ?_
  intro a b ha hb hab
  have haS : a ∈ S := (sorted_span_perm S).mem_iff.mp ha
  have hbS : b ∈ S := (sorted_span_perm S).mem_iff.mp hb
  rcases Nat.lt_or_ge a.2 b.2 with h | h
  · exact h
  exfalso
  have heq : a.2 = b.2 := Nat.le_antisymm hab.1 h
  obtain ⟨u, hu, rfl⟩ := span_keys hS haS
  obtain ⟨v, hv, rfl⟩ := span_keys hS hbS
  have : u = v := by
    refine pos_inj_forest hnd hu hv ?_
    rw [← tokKey_snd u, ← tokKey_snd v]
    exact heq
  exact hab.2 (by rw [this])

theorem heads_strict {roots : List Tok}
    (hnd : ((allNodesList roots).map Tok.i).Nodup) :
    (final_subclauses_sorted roots).Pairwise
      (fun s1 s2 : List Key => headPos s1 < headPos s2) := by
  have hsorted : (final_subclauses_sorted roots).Pairwise spanLe :=
    List.sorted_insertionSort spanLe _
  have hnodup : (final_subclauses_sorted roots).Nodup :=
    ((List.perm_insertionSort spanLe _).nodup_iff).mpr (List.nodup_dedup _)
  refine (hsorted.and hnodup).imp_of_mem ?_
  intro s1 s2 h1 h2 hss
  rcases Nat.lt_or_ge (headPos s1) (headPos s2) with h | h
  · exact h
  exfalso
  have heq : headPos s1 = headPos s2 := Nat.le_antisymm hss.1 h
  obtain ⟨S1, hS1, hsp1⟩ := mem_final_subclauses_sorted.mp h1
  obtain ⟨S2, hS2, hsp2⟩ := mem_final_subclauses_sorted.mp h2
  have hne1 : s1 ≠ [] := by
    rw [← hsp1]
    intro hc
    refine (emitted_basic hS1).2 (List.eq_nil_of_length_eq_zero ?_)
    have hl := (sorted_span_perm S1).length_eq
    rw [hc] at hl
    simpa using hl.symm
  have hne2 : s2 ≠ [] := by
    rw [← hsp2]
    intro hc
    refine (emitted_basic hS2).2 (List.eq_nil_of_length_eq_zero ?_)
    have hl := (sorted_span_perm S2).length_eq
    rw [hc] at hl
    simpa using hl.symm
  obtain ⟨k1, r1, rfl⟩ := List.exists_cons_of_ne_nil hne1
  obtain ⟨k2, r2, rfl⟩ := List.exists_cons_of_ne_nil hne2
  have hk1S : k1 ∈ S1 := by
    refine (sorted_span_perm S1).mem_iff.mp ?_
    rw [hsp1]
    exact List.mem_cons_self _ _
  have hk2S : k2 ∈ S2 := by
    refine (sorted_span_perm S2).mem_iff.mp ?_
    rw [hsp2]
    exact List.mem_cons_self _ _
  have hpos : k1.2 = k2.2 := heq
  obtain ⟨u, hu, rfl⟩ := span_keys hS1 hk1S
  obtain ⟨v, hv, rfl⟩ := span_keys hS2 hk2S
  have huv : u = v := by
    refine pos_inj_forest hnd hu hv ?_
    rw [← tokKey_snd u, ← tokKey_snd v]
    exact hpos
  subst huv
  have hS12 : S1 = S2 := by
    rw [emitted_eq_assigned hnd hS1 hk1S, emitted_eq_assigned hnd hS2 hk2S]
  exact hss.2 (by rw [← hsp1, ← hsp2, hS12])

/-- Claim C5: in the output of `get_all_subclauses_of_sent`, tokens inside
each subclause are ordered by ascending original position, and across
subclauses the positions of the first tokens are strictly increasing.
The positions exist on the spans of `final_subclauses_sorted` (lines
246-255), from which the output is obtained span by span (`remove_ind`
strips the positions, then the terminator and trimming steps run). -/
theorem claim_C5 (roots : List Tok)
    (hnd : ((docOfForest roots).map Tok.i).Nodup) :
    (∀ span ∈ final_subclauses_sorted roots,
      (span.map (fun k : Key => k.2)).Pairwise (· < ·)) ∧
    ((final_subclauses_sorted roots).map headPos).Pairwise (· < ·) ∧
    (∀ final_punc conj_and_punc_list,
      get_all_subclauses_core roots final_punc conj_and_punc_list =
        (final_subclauses_sorted roots).map (assemble_step final_punc conj_and_punc_list)) := by
  have hnd' : ((allNodesList roots).map Tok.i).Nodup := nodup_doc_iff.mp hnd
  refine ⟨?_, ?_, fun _ _ => rfl⟩
  · intro span hspan
    obtain ⟨S, hS, rfl⟩ := mem_final_subclauses_sorted.mp hspan
    exact List.pairwise_map.mpr (span_strict_sorted hnd' hS)
  · exact List.pairwise_map.mpr (heads_strict hnd')

theorem claim_C5_witness :
    ((docOfForest [sampleRoot]).map Tok.i).Nodup ∧
      ((∀ span ∈ final_subclauses_sorted [sampleRoot],
        (span.map (fun k : Key => k.2)).Pairwise (· < ·)) ∧
      ((final_subclauses_sorted [sampleRoot]).map headPos).Pairwise (· < ·) ∧
      (∀ final_punc conj_and_punc_list,
        get_all_subclauses_core [sampleRoot] final_punc conj_and_punc_list =
          (final_subclauses_sorted [sampleRoot]).map
            (assemble_step final_punc conj_and_punc_list))) :=
  ⟨by decide, claim_C5 [sampleRoot] (by decide)⟩

/-! Section: The trimming loop -/

theorem trim_iter_nil (L : List String) : ∀ n, trim_iter L n [] = [] := by
  intro n
  cases n with
  | zero => rfl
  | succ k => rfl

theorem trim_no_hits (L : List String) : ∀ n, ∀ s : List String, s.length ≤ n →
    2 ≤ (trim_iter L n s).length →
    (∀ h, (trim_iter L n s).head? = some h → h ∉ L) ∧
      (∀ h, (trim_iter L n s).getLast? = some h → h ∉ L) := by
  intro n
  induction n with
  | zero =>
    intro s hs hlen2
    have : s = [] := List.eq_nil_of_length_eq_zero (Nat.le_zero.mp hs)
    subst this
    simp [trim_iter] at hlen2
  | succ k ih =>
    intro s hs hlen2
    cases s with
    | nil =>
      rw [trim_iter_nil] at hlen2
      simp at hlen2
    | cons x rest =>
      by_cases hx : x ∈ L
      · rcases hgl : rest.getLast? with _ | y
        · have hrest : rest = [] := by
            cases rest with
            | nil => rfl
            | cons a b =>
              rw [List.getLast?_eq_getLast _ (by simp)] at hgl
              cases hgl
          subst hrest
          have heq : trim_iter L (k + 1) [x] = [] := by
            rw [trim_iter]
            simp [decide_eq_true hx]
          rw [heq] at hlen2
          simp at hlen2
        · by_cases hy : y ∈ L
          · by_cases hl1 : rest.dropLast.length ≤ 1
            · have heq : trim_iter L (k + 1) (x :: rest) = rest.dropLast := by
                rw [trim_iter]
                simp only [decide_eq_true hx, List.tail_cons, eq_self_iff_true, if_true, hgl,
                  decide_eq_true hy, Bool.true_eq_false, false_and, false_or]
                rw [if_pos hl1]
              rw [heq] at hlen2
              omega
            · have heq : trim_iter L (k + 1) (x :: rest) = trim_iter L k rest.dropLast := by
                rw [trim_iter]
                simp only [decide_eq_true hx, List.tail_cons, eq_self_iff_true, if_true, hgl,
                  decide_eq_true hy, Bool.true_eq_false, false_and, false_or]
                rw [if_neg hl1]
              rw [heq] at hlen2 ⊢
              refine ih rest.dropLast ?_ hlen2
              have h1 : rest.length + 1 ≤ k + 1 := hs
              have h2 : rest.dropLast.length = rest.length - 1 := List.length_dropLast rest
              omega
          · by_cases hl1 : rest.length ≤ 1
            · have heq : trim_iter L (k + 1) (x :: rest) = rest := by
                rw [trim_iter]
                simp only [decide_eq_true hx, List.tail_cons, eq_self_iff_true, if_true, hgl,
                  decide_eq_false hy, Bool.true_eq_false, Bool.false_eq_true, false_and,
                  and_false, false_or, if_false]
                rw [if_pos hl1]
              rw [heq] at hlen2
              omega
            · have heq : trim_iter L (k + 1) (x :: rest) = trim_iter L k rest := by
                rw [trim_iter]
                simp only [decide_eq_true hx, List.tail_cons, eq_self_iff_true, if_true, hgl,
                  decide_eq_false hy, Bool.true_eq_false, Bool.false_eq_true, false_and,
                  and_false, false_or, if_false]
                rw [if_neg hl1]
              rw [heq] at hlen2 ⊢
              refine ih rest ?_ hlen2
              have h1 : rest.length + 1 ≤ k + 1 := hs
              omega
      · rcases hgl : (x :: rest).getLast? with _ | y
        · rw [List.getLast?_eq_getLast _ (by simp)] at hgl
          cases hgl
        · by_cases hy : y ∈ L
          · by_cases hl1 : (x :: rest).dropLast.length ≤ 1
            · have heq : trim_iter L (k + 1) (x :: rest) = (x :: rest).dropLast := by
                rw [trim_iter]
                simp only [decide_eq_false hx, Bool.false_eq_true, if_false, hgl,
                  decide_eq_true hy, eq_self_iff_true, if_true, Bool.true_eq_false,
                  and_false, false_or]
                rw [if_pos hl1]
              rw [heq] at hlen2
              omega
            · have heq :
                  trim_iter L (k + 1) (x :: rest) = trim_iter L k (x :: rest).dropLast := by
                rw [trim_iter]
                simp only [decide_eq_false hx, Bool.false_eq_true, if_false, hgl,
                  decide_eq_true hy, eq_self_iff_true, if_true, Bool.true_eq_false,
                  and_false, false_or]
                rw [if_neg hl1]
              rw [heq] at hlen2 ⊢
              refine ih (x :: rest).dropLast ?_ hlen2
              have h1 : rest.length + 1 ≤ k + 1 := hs
              have h2 : (x :: rest).dropLast.length = (x :: rest).length - 1 :=
                List.length_dropLast _
              have h3 : (x :: rest).length = rest.length + 1 := rfl
              omega
          · have heq : trim_iter L (k + 1) (x :: rest) = x :: rest := by
              rw [trim_iter]
              simp only [decide_eq_false hx, Bool.false_eq_true, if_false, hgl,
                decide_eq_false hy, eq_self_iff_true, and_self, true_or, if_true]
            rw [heq]
            constructor
            · intro h hh
              rw [List.head?_cons] at hh
              cases hh
              exact hx
            · intro h hh
              rw [hgl] at hh
              cases hh
              exact hy

/-- Claim C7: boundary trimming is idempotent: for every token list `s` and
every boundary-token list `L`,
`remove_trailing_conjs_and_puncs (remove_trailing_conjs_and_puncs s L) L`
equals `remove_trailing_conjs_and_puncs s L`. -/
theorem claim_C7 (s L : List String) :
    remove_trailing_conjs_and_puncs (remove_trailing_conjs_and_puncs s L) L =
      remove_trailing_conjs_and_puncs s L := by
  by_cases h1 : s.length ≤ 1
  · unfold remove_trailing_conjs_and_puncs
    rw [if_pos h1, if_pos h1]
  · have hdef : remove_trailing_conjs_and_puncs s L = trim_iter L s.length s := by
      unfold remove_trailing_conjs_and_puncs
      rw [if_neg h1]
    by_cases h2 : (trim_iter L s.length s).length ≤ 1
    · rw [hdef]
      unfold remove_trailing_conjs_and_puncs
      rw [if_pos h2]
    · have hnh := trim_no_hits L s.length s (Nat.le_refl _) (by omega)
      rw [hdef]
      unfold remove_trailing_conjs_and_puncs
      rw [if_neg h2]
      have hne : trim_iter L s.length s ≠ [] := by
        intro hc
        rw [hc] at h2
        simp at h2
      obtain ⟨hd, rest, hcons⟩ := List.exists_cons_of_ne_nil hne
      have hhd : hd ∉ L := by
        refine hnh.1 hd ?_
        rw [hcons]
        rfl
      have hysome : ∃ y, (trim_iter L s.length s).getLast? = some y := by
        rw [hcons]
        exact ⟨(hd :: rest).getLast (by simp), List.getLast?_eq_getLast _ (by simp)⟩
      obtain ⟨y, hy'⟩ := hysome
      have hyL : y ∉ L := hnh.2 y hy'
      rw [hcons] at hy' ⊢
      show trim_iter L (rest.length + 1) (hd :: rest) = hd :: rest
      rw [trim_iter]
      simp only [decide_eq_false hhd, Bool.false_eq_true, if_false, hy',
        decide_eq_false hyL, eq_self_iff_true, and_self, true_or, if_true]

/-- Claim C10 (amended): `remove_trailing_conjs_and_puncs` returns its
argument unchanged whenever the input list has length 0 or 1, so a
returned subclause may consist of exactly one token that is itself a
member of the boundary-token list (a lone conjunction or punctuation
mark in a length-1 input is never removed); the trim loop, however,
checks the length only at the end of a full pass (front removal, then
back removal), so a length-2 list both of whose tokens are boundary
tokens is trimmed to the empty list rather than stopping at length 1. -/
theorem claim_C10 :
    (∀ s L : List String, s.length ≤ 1 → remove_trailing_conjs_and_puncs s L = s) ∧
      remove_trailing_conjs_and_puncs [".", "."] conj_and_punc_list_en = [] := by
  constructor
  · intro s L h
    unfold remove_trailing_conjs_and_puncs
    rw [if_pos h]
  · decide

theorem claim_C10_counterexample :
    remove_trailing_conjs_and_puncs [".", "."] conj_and_punc_list_en = [] ∧
      remove_trailing_conjs_and_puncs [".", "."] conj_and_punc_list_en ≠ ["."] := by
  decide

theorem claim_C10_witness :
    (["."] : List String).length ≤ 1 ∧
      remove_trailing_conjs_and_puncs ["."] conj_and_punc_list_en = ["."] :=
  ⟨by decide, claim_C10.1 ["."] conj_and_punc_list_en (by decide)⟩

/-- Claim C6 (amended): for an input whose stripped text is empty — in
particular the empty sentence — `get_all_subclauses_of_sent` fails with
an index error (Python raises `IndexError` at `sent[-1]`, line 233)
instead of returning an empty list; an input whose stripped text is
non-empty but parses to zero tokens yields the empty subclause list. -/
theorem claim_C6 (nlp : String → List Tok) (conj_and_punc_list : List String)
    (sentence : String) :
    (py_strip sentence = "" →
      get_all_subclauses_of_sent nlp conj_and_punc_list sentence =
        Except.error "string index out of range") ∧
    (py_strip sentence ≠ "" → nlp (py_strip sentence) = [] →
      get_all_subclauses_of_sent nlp conj_and_punc_list sentence = Except.ok []) := by
  constructor
  · intro h
    simp only [get_all_subclauses_of_sent, h]
    rfl
  · intro h hnlp
    simp only [get_all_subclauses_of_sent]
    cases htl : (py_strip sentence).toList with
    | nil =>
      exact absurd (String.ext htl) h
    | cons c cs =>
      have hgl : (c :: cs).getLast? = some ((c :: cs).getLast (by simp)) :=
        List.getLast?_eq_getLast _ (by simp)
      rw [hgl, hnlp]
      rfl

theorem claim_C6_counterexample :
    get_all_subclauses_of_sent (fun _ => []) conj_and_punc_list_en "" =
        Except.error "string index out of range" ∧
      get_all_subclauses_of_sent (fun _ => []) conj_and_punc_list_en "" ≠
        Except.ok [] :=
  ⟨rfl, fun hc => Except.noConfusion hc⟩

theorem claim_C6_witness :
    (py_strip "" = "" ∧
      get_all_subclauses_of_sent (fun _ => []) conj_and_punc_list_en "" =
        Except.error "string index out of range") ∧
    (py_strip "x" ≠ "" ∧
      get_all_subclauses_of_sent (fun _ => []) conj_and_punc_list_en "x" = Except.ok []) :=
  ⟨⟨rfl, (claim_C6 (fun _ => []) conj_and_punc_list_en "").1 rfl⟩,
   ⟨by decide, (claim_C6 (fun _ => []) conj_and_punc_list_en "x").2 (by decide) rfl⟩⟩

/-! Section: The closure computes exactly boundary-free reachability (C3) -/

theorem spec_reach_extend {a b c : Tok} (h1 : SpecReachable a b) (h2 : SpecReachable b c) :
    SpecReachable a c := by
  induction h2 with
  | refl => exact h1
  | step _ hc hb ih => exact SpecReachable.step ih hc hb

theorem closure_subset_of_reach {t u : Tok} (h : SpecReachable t u) :
    ∀ x ∈ get_children_recurs u 0, x ∈ get_children_recurs t 0 := by
  induction h with
  | refl => exact fun x hx => hx
  | step _ hc hb ih => exact fun x hx => ih x (closure_subset_of_kid hc hb hx)

theorem reach_of_mem_closure : ∀ t : Tok, ∀ x ∈ get_children_recurs t 0,
    ∃ u, SpecReachable t u ∧ x = tokKey u := by
  refine tok_ind ?_
  intro text i tag dep kids ih x hx
  rcases mem_closure_elim hx with rfl | ⟨kid, hkid, hb, hxk⟩
  · exact ⟨_, SpecReachable.refl _, rfl⟩
  · obtain ⟨u, hu, rfl⟩ := ih kid hkid x hxk
    exact ⟨u, spec_reach_extend (SpecReachable.step (SpecReachable.refl _) hkid hb) hu, rfl⟩

/-- Claim C3: for every token `root` of a parsed dependency tree, the
closure computed by `get_children_recurs(root, 0)` consists of exactly
the keys of `root` itself and of every descendant reachable from `root`
through child edges without crossing a child edge whose dependency
label is in the boundary-relation set (`{conj, ccomp}`) and whose tag is
a clause-head tag; when such a boundary child is met, that child and its
entire subtree are excluded, and the pruning rule applies independently
at every depth (`SpecReachable` is the spec-side reachability). -/
theorem claim_C3 (root : Tok) (k : Key) :
    k ∈ get_children_recurs root 0 ↔ ∃ u, SpecReachable root u ∧ k = tokKey u := by
  constructor
  · exact reach_of_mem_closure root k
  · rintro ⟨u, hu, rfl⟩
    exact closure_subset_of_reach hu (tokKey u) (self_mem_closure u)

/-! Section: Termination of the Python recursion (C9) -/

theorem nodup_subtreeScan (t : Tok) : (subtreeScan t).Nodup := by
  rw [subtreeScan_eq]
  exact nodup_kidsScan _

theorem recurs_pos (t : Tok) (lev : Nat) (h : lev ≠ 0) :
    get_children_recurs t lev = subtreeScan t := by
  unfold get_children_recurs
  rw [if_neg h]
  exact sunion_nil_left (nodup_subtreeScan t)

theorem heightList_ge : ∀ kids : List Tok, ∀ k ∈ kids, height k ≤ heightList kids := by
  intro kids
  induction kids with
  | nil => intro k hk; cases hk
  | cons a l ih =>
    intro k hk
    rw [heightList]
    rcases List.mem_cons.mp hk with rfl | hk2
    · exact Nat.le_max_left _ _
    · exact Nat.le_trans (ih k hk2) (Nat.le_max_right _ _)

theorem children_scan_fuel_adequate (f : Nat) :
    ∀ l : List Tok,
      (∀ k ∈ l, ∀ lv, get_children_recurs_fuel f k lv = some (get_children_recurs k lv)) →
      ∀ lv, 1 ≤ lv → children_scan_fuel f l lv = some (kidsScan l) := by
  intro l
  induction l with
  | nil =>
    intro _ lv _
    rw [children_scan_fuel, kidsScan]
  | cons kid rest ih =>
    intro hk lv hlv
    rw [children_scan_fuel, kidsScan]
    by_cases hb : isBoundary kid = true
    · rw [if_pos hb, if_pos hb]
      exact ih (fun k hk2 lv2 => hk k (List.mem_cons_of_mem _ hk2) lv2) lv hlv
    · rw [if_neg hb, if_neg hb]
      rw [ih (fun k hk2 lv2 => hk k (List.mem_cons_of_mem _ hk2) lv2) lv hlv]
      rw [hk kid (List.mem_cons_self _ _) lv]
      rw [recurs_pos kid lv (by omega)]

theorem fuel_adequate : ∀ t : Tok, ∀ fuel, height t ≤ fuel → ∀ lev,
    get_children_recurs_fuel fuel t lev = some (get_children_recurs t lev) := by
  refine tok_ind ?_
  intro text i tag dep kids ih fuel hf lev
  cases fuel with
  | zero =>
    rw [height] at hf
    omega
  | succ f =>
    rw [get_children_recurs_fuel]
    have hbound : ∀ k ∈ kids, ∀ lv,
        get_children_recurs_fuel f k lv = some (get_children_recurs k lv) := by
      intro k hk lv
      refine ih k hk f ?_ lv
      have h1 : height k ≤ heightList kids := heightList_ge kids k hk
      rw [height] at hf
      omega
    have hscan := children_scan_fuel_adequate f kids hbound (lev + 1) (by omega)
    have hch : (Tok.mk text i tag dep kids).children = kids := rfl
    rw [hch, hscan]
    show some _ = _
    unfold get_children_recurs
    rw [show subtreeScan (Tok.mk text i tag dep kids) = kidsScan kids from subtreeScan_eq _]

/-- Claim C9: `get_children_recurs` terminates on every parsed dependency
tree because each recursive call descends strictly to a child:
`get_children_recurs_fuel` is the call-by-call translation of the Python
recursion with an explicit call-depth budget, and a budget of
`height tok` (the depth of the tree) always suffices to reach the fixed
point `get_children_recurs tok lev`. -/
theorem claim_C9 (tok : Tok) (lev : Nat) :
    ∃ fuel, get_children_recurs_fuel fuel tok lev = some (get_children_recurs tok lev) :=
  ⟨height tok, fuel_adequate tok (height tok) (Nat.le_refl _) lev⟩

/-! Section: Terminator restoration in `convert_to_subclauses` (C2) -/

theorem final_punc_mark_cases (s : String) :
    ∃ c : Char, (c = '.' ∨ c = '?' ∨ c = '!') ∧ final_punc_mark s = String.mk [c] ∧
      c.isWhitespace = false := by
  unfold final_punc_mark
  rcases h : s.toList.reverse.dropWhile (fun c => c == '"' || c == Char.ofNat 39) with _ | ⟨c, rest⟩
  · exact ⟨'.', Or.inl rfl, rfl, by decide⟩
  · by_cases hc : (c == '.' || c == '?' || c == '!') = true
    · have hc2 : c = '.' ∨ c = '?' ∨ c = '!' := by
        rcases Bool.or_eq_true_iff.mp hc with h1 | h2
        · rcases Bool.or_eq_true_iff.mp h1 with h3 | h4
          · exact Or.inl (by exact beq_iff_eq.mp h3)
          · exact Or.inr (Or.inl (beq_iff_eq.mp h4))
        · exact Or.inr (Or.inr (beq_iff_eq.mp h2))
      refine ⟨c, hc2, ?_, ?_⟩
      · show (if (c == '.' || c == '?' || c == '!') = true then String.mk [c] else ".") =
          String.mk [c]
        rw [if_pos hc]
      · rcases hc2 with rfl | rfl | rfl <;> decide
    · refine ⟨'.', Or.inl rfl, ?_, by decide⟩
      show (if (c == '.' || c == '?' || c == '!') = true then String.mk [c] else ".") =
        String.mk ['.']
      rw [if_neg hc]

theorem split_ws_last : ∀ (l : List Char) (acc : List Char) (m : Char),
    m.isWhitespace = false →
    split_ws_aux (l ++ [' ', m]) acc ≠ [] ∧
      (split_ws_aux (l ++ [' ', m]) acc).getLast? = some (String.mk [m]) := by
  intro l
  induction l with
  | nil =>
    intro acc m hm
    have hinner : split_ws_aux [m] [] = [String.mk [m]] := by
      rw [split_ws_aux]
      rw [if_neg (by rw [hm]; exact fun hc => Bool.noConfusion hc)]
      rfl
    show split_ws_aux (' ' :: [m]) acc ≠ [] ∧
      (split_ws_aux (' ' :: [m]) acc).getLast? = some (String.mk [m])
    rw [split_ws_aux]
    rw [if_pos (by decide)]
    by_cases hacc : acc.isEmpty
    · rw [if_pos hacc, hinner]
      exact ⟨by simp, rfl⟩
    · rw [if_neg hacc, hinner]
      exact ⟨by simp, rfl⟩
  | cons c l ih =>
    intro acc m hm
    show split_ws_aux (c :: (l ++ [' ', m])) acc ≠ [] ∧
      (split_ws_aux (c :: (l ++ [' ', m])) acc).getLast? = some (String.mk [m])
    rw [split_ws_aux]
    by_cases hw : c.isWhitespace
    · rw [if_pos hw]
      by_cases hacc : acc.isEmpty
      · rw [if_pos hacc]
        exact ih [] m hm
      · rw [if_neg hacc]
        obtain ⟨hne, hlast⟩ := ih [] m hm
        obtain ⟨r0, rs, hrec⟩ := List.exists_cons_of_ne_nil hne
        rw [hrec]
        rw [hrec] at hlast
        exact ⟨by simp, by rw [List.getLast?_cons_cons]; exact hlast⟩
    · rw [if_neg hw]
      exact ih (c :: acc) m hm

/-- Claim C2: every subclause in the list returned by
`convert_to_subclauses` is a non-empty ordered sequence of tokens whose
last token is one of `. ? ! ; :` — assembly never emits an empty
subclause or one lacking a sentence terminator.  (`normalize` and `nlp`
are the external tokenizer and parser; the statement holds for every
choice of them, in particular for the repository's.) -/
theorem claim_C2 (normalize : String → String) (nlp : String → List Tok)
    (conj_and_punc_list : List String) (sentence : String) (subs : List (List String))
    (h : convert_to_subclauses normalize nlp conj_and_punc_list sentence = Except.ok subs) :
    ∀ sub ∈ subs, sub ≠ [] ∧
      ∃ last, sub.getLast? = some last ∧ last ∈ [".", "?", "!", ";", ":"] := by
  simp only [convert_to_subclauses] at h
  rcases hres : get_all_subclauses_of_sent nlp conj_and_punc_list
      (collapse_spaces (join_with_spaces ((docOfForest (nlp (normalize sentence))).map
        Tok.text))) with e | revs
  · rw [hres] at h
    cases h
  · rw [hres] at h
    have hsubs : subs = revs.map (fun rev_subclause =>
        py_strip_split (remove_trailing_puncs (join_with_spaces rev_subclause) ++ " " ++
          final_punc_mark (join_with_spaces ((docOfForest (nlp (normalize sentence))).map
            Tok.text)))) := by
      cases h
      rfl
    subst hsubs
    intro sub hsub
    obtain ⟨rev, _, rfl⟩ := List.mem_map.mp hsub
    obtain ⟨m, hm, hfpm, hwm⟩ := final_punc_mark_cases
      (join_with_spaces ((docOfForest (nlp (normalize sentence))).map Tok.text))
    rw [hfpm]
    have htl : (remove_trailing_puncs (join_with_spaces rev) ++ " " ++
        String.mk [m]).toList =
        (remove_trailing_puncs (join_with_spaces rev)).toList ++ [' ', m] := by
      show ((remove_trailing_puncs (join_with_spaces rev) ++ " ") ++ String.mk [m]).data = _
      rw [String.data_append, String.data_append]
      simp [String.data]
    unfold py_strip_split
    rw [htl]
    obtain ⟨hne, hlast⟩ :=
      split_ws_last (remove_trailing_puncs (join_with_spaces rev)).toList [] m hwm
    refine ⟨hne, String.mk [m], hlast, ?_⟩
    rcases hm with rfl | rfl | rfl <;> decide

theorem claim_C2_witness :
    convert_to_subclauses (fun s => s) (fun _ => [sampleRoot]) conj_and_punc_list_en
        "The food ." = Except.ok [["like", "food", "."]] ∧
      ∀ sub ∈ [["like", "food", "."]], sub ≠ [] ∧
        ∃ last, sub.getLast? = some last ∧ last ∈ [".", "?", "!", ";", ":"] :=
  ⟨rfl, claim_C2 (fun s => s) (fun _ => [sampleRoot]) conj_and_punc_list_en
    "The food ." [["like", "food", "."]] rfl⟩
